import Mathlib

/-!
Verification development for the streaming binary decoder of
clickhouse-connect (the Cython `ResponseBuffer` of
`clickhouse_connect/driverc/buffer.pyx`, the column readers of
`driverc/dataconv.pyx`, and `epoch_days_to_date`).

Bytes are modelled as `Nat` (wire bytes are < 256); a chunk is a
`List Nat`; the pull generator is the list of chunks not yet pulled.
Machine 64-bit accumulators are modelled as `Nat` with explicit
`% 2 ^ 64`.  C `int` arithmetic is modelled on `Int`, with `Int.tdiv`
for C (truncating) division — the source compiles with
`cython.cdivision(True)` — and `>>>` (arithmetic shift) for C `>>`.
Fallible reads return `Option`: `none` stands for the
StopIteration/IndexError ("end of stream") raised by the source.
-/

/-- State of `ResponseBuffer` (`buffer.pyx`): `gen` is the list of chunks
the generator has not yet yielded, `buffer` the retained current chunk
(`self.buffer`, held via the buffer protocol), `buf_loc`/`buf_sz` the read
position and filled size within it, and `slice_sz` the capacity of the
owned scratch buffer `self.slice`. -/
structure RB where
  gen : List (List Nat)
  buffer : List Nat
  buf_loc : Nat
  buf_sz : Nat
  slice_sz : Nat
deriving DecidableEq

/-- `ResponseBuffer.__init__`: empty current buffer, scratch capacity 4096. -/
def initBuffer (chunks : List (List Nat)) : RB :=
  { gen := chunks, buffer := [], buf_loc := 0, buf_sz := 0, slice_sz := 4096 }

/-- The unread bytes of the retained current chunk. -/
def bufRest (rb : RB) : List Nat :=
  (rb.buffer.take rb.buf_sz).drop rb.buf_loc

/-- The whole logical byte sequence still ahead of the cursor: the unread
part of the current chunk followed by all chunks not yet pulled. -/
def streamRest (rb : RB) : List Nat :=
  bufRest rb ++ rb.gen.flatten

/-- Count of bytes ahead of the cursor, counting by chunk lengths; the
termination measure for the varint loop. -/
def rbBytes (rb : RB) : Nat :=
  (rb.buf_sz - rb.buf_loc) + (rb.gen.map List.length).sum

/-- Buffer bookkeeping invariant: the read position is inside the filled
region and the filled region inside the retained chunk. -/
def bufWF (rb : RB) : Prop :=
  rb.buf_loc ≤ rb.buf_sz ∧ rb.buf_sz ≤ rb.buffer.length

/-- Once the source yields a zero-length chunk no further data follows
(a zero-length chunk signals end of source, per the wire contract). -/
def genOK : List (List Nat) → Prop
  | [] => True
  | c :: rest => (c = [] → ∀ c' ∈ rest, c' = []) ∧ genOK rest

/-- Combined well-formedness of a buffer state. -/
def rbWF (rb : RB) : Prop := bufWF rb ∧ genOK rb.gen

/-- Scratch-capacity growth loop of `read_bytes_c`
(`temp = self.slice_sz; while temp < sz * 2: temp <<= 1`).  The
`0 < temp` guard is for termination only: `slice_sz` starts at 4096 and
never decreases, so the guard never fires on reachable states (at
`temp = 0` the C loop would not terminate either). -/
def growLoop (temp target : Nat) : Nat :=
  if h : 0 < temp ∧ temp < target then growLoop (temp * 2) target else temp
termination_by target - temp
decreasing_by omega

/-- `ResponseBuffer._read_byte_load`: the buffered region is exhausted, so
pull the next chunk; an exhausted generator (StopIteration) or a
zero-length chunk (IndexError) is an end-of-stream failure.  A chunk of
more than one byte is retained as the new current buffer with
`buf_loc = 1`. -/
def read_byte_load (rb : RB) : Option (Nat × RB) :=
  match rb.gen with
  | [] => none
  | chunk :: rest =>
    match chunk with
    | [] => none
    | b :: _ =>
      if 1 < chunk.length then
        some (b, { gen := rest, buffer := chunk, buf_loc := 1,
                   buf_sz := chunk.length, slice_sz := rb.slice_sz })
      else
        some (b, { gen := rest, buffer := rb.buffer, buf_loc := 0,
                   buf_sz := 0, slice_sz := rb.slice_sz })

/-- `ResponseBuffer.read_byte`: serve from the current chunk when a byte is
buffered, otherwise load the next chunk. -/
def read_byte (rb : RB) : Option (Nat × RB) :=
  if rb.buf_loc < rb.buf_sz then
    some (rb.buffer.getD rb.buf_loc 0, { rb with buf_loc := rb.buf_loc + 1 })
  else read_byte_load rb

/-- The chunk-pulling loop of `read_bytes_c` (`while cur_len < sz`): `acc`
is the scratch-buffer content assembled so far; a chunk that fits entirely
is appended whole, a chunk that overshoots contributes its first
`sz - cur_len` bytes to the scratch and is retained as the new current
buffer (`buf_loc = tail`, `buf_sz = len(chunk)`). -/
def fillLoop (sz : Nat) : List (List Nat) → List Nat → List Nat → Nat → Nat → Nat →
    Option (List Nat × RB)
  | gen, acc, buffer, bl, bs, ssz =>
    if acc.length < sz then
      match gen with
      | [] => none
      | chunk :: rest =>
        if acc.length + chunk.length ≤ sz then
          fillLoop sz rest (acc ++ chunk) buffer bl bs ssz
        else
          fillLoop sz rest (acc ++ chunk.take (sz - acc.length)) chunk
            (sz - acc.length) chunk.length ssz
    else some (acc, ⟨gen, buffer, bl, bs, ssz⟩)

/-- `ResponseBuffer.read_bytes_c`: fast path returns a zero-copy view of
`sz` bytes of the current chunk; otherwise the scratch capacity is grown
(doubling until ≥ `2 * sz`, reallocating only when it actually grew), the
tail of the current chunk is carried over, `buf_loc`/`buf_sz` are reset
and chunks are pulled until `sz` bytes are assembled. -/
def read_bytes_c (rb : RB) (sz : Nat) : Option (List Nat × RB) :=
  if rb.buf_loc + sz ≤ rb.buf_sz then
    some ((rb.buffer.drop rb.buf_loc).take sz, { rb with buf_loc := rb.buf_loc + sz })
  else
    let temp := growLoop rb.slice_sz (sz * 2)
    let newSz := if rb.slice_sz < temp then temp else rb.slice_sz
    fillLoop sz rb.gen (bufRest rb) rb.buffer 0 0 newSz

/-- `ResponseBuffer.read_leb128`'s loop: each byte contributes its low 7
bits at the current shift into the 64-bit accumulator
(`sz += (b & 0x7f) << shift`), the high bit is the continuation flag. -/
def read_leb128_aux (rb : RB) (sz shift : Nat) : Option (Nat × RB) :=
  match h : read_byte rb with
  | none => none
  | some (b, rb') =>
    if b &&& 128 = 0 then some ((sz + (b &&& 127) * 2 ^ shift) % 2 ^ 64, rb')
    else read_leb128_aux rb' ((sz + (b &&& 127) * 2 ^ shift) % 2 ^ 64) (shift + 7)
termination_by rbBytes rb
decreasing_by
  simp only [read_byte, read_byte_load] at h
  rcases rb with ⟨gen, buffer, bl, bs, ssz⟩
  simp only [rbBytes]
  by_cases hlt : bl < bs
  · simp only [if_pos hlt, Option.some.injEq, Prod.mk.injEq] at h
    rw [← h.2]
    simp only []
    omega
  · simp only [if_neg hlt] at h
    rcases gen with _ | ⟨chunk, rest⟩
    · simp at h
    · rcases chunk with _ | ⟨b0, cr⟩
      · simp at h
      · by_cases hone : 1 < (b0 :: cr).length
        · simp only [if_pos hone, Option.some.injEq, Prod.mk.injEq] at h
          rw [← h.2]
          simp only [List.map_cons, List.sum_cons, List.length_cons]
          omega
        · simp only [if_neg hone, Option.some.injEq, Prod.mk.injEq] at h
          rw [← h.2]
          simp only [List.map_cons, List.sum_cons, List.length_cons]
          omega

/-- `ResponseBuffer.read_leb128`: accumulator and shift start at zero. -/
def read_leb128 (rb : RB) : Option (Nat × RB) :=
  read_leb128_aux rb 0 0

/-- Lowercase hexadecimal digit, as Python's `bytes.hex` produces. -/
def hexChar (n : Nat) : Char :=
  if n < 10 then Char.ofNat (48 + n) else Char.ofNat (87 + n)

/-- Python `bytes(payload).hex()`: two lowercase hex digits per byte. -/
def hexString (bs : List Nat) : String :=
  String.mk (bs.flatMap fun b => [hexChar (b / 16 % 16), hexChar (b % 16)])

/-- The per-cell decode of `_read_str_col`: `PyUnicode_Decode` with the
requested encoding (modelled by the abstract partial function `d`, `none`
standing for `UnicodeDecodeError`), falling back to the lowercase hex of
the raw payload bytes. -/
def cellOf (d : List Nat → Option String) (payload : List Nat) : String :=
  match d payload with
  | some s => s
  | none => hexString payload

/-- `ResponseBuffer._read_str_col`: for each of `num_rows` rows, read a
LEB128 length (the source inlines the same byte loop as `read_leb128`),
read that many payload bytes, and decode with hex fallback. -/
def read_str_col (d : List Nat → Option String) : Nat → RB → Option (List String × RB)
  | 0, rb => some ([], rb)
  | n + 1, rb =>
    match read_leb128_aux rb 0 0 with
    | none => none
    | some (sz, rb1) =>
      match read_bytes_c rb1 sz with
      | none => none
      | some (payload, rb2) =>
        match read_str_col d n rb2 with
        | none => none
        | some (col, rb3) => some (cellOf d payload :: col, rb3)

/-- Python `int.from_bytes(bs, 'little')`. -/
def leVal : List Nat → Nat
  | [] => 0
  | b :: rest => b + 256 * leVal rest

/-- `read_uuid_col` (`dataconv.pyx`): 16 wire bytes per row; the two 8-byte
halves are swapped (`memcpy(temp, loc + 8, 8); memcpy(temp + 8, loc, 8)`)
and the result is `int.from_bytes(temp, 'little')`. -/
def read_uuid_col (rb : RB) (num_rows : Nat) : Option (List Nat × RB) :=
  match read_bytes_c rb (16 * num_rows) with
  | none => none
  | some (data, rb') =>
    some ((List.range num_rows).map fun x =>
      let block := (data.drop (16 * x)).take 16
      leVal (block.drop 8 ++ block.take 8), rb')

/-- `ResponseBuffer.read_array`: one bulk read of `itemsize * num_rows`
bytes reinterpreted as fixed-width items.  The typed-array item values are
modelled as unsigned little-endian (`leVal`); the host is little-endian so
no byteswap occurs. -/
def read_array (rb : RB) (item_size num_rows : Nat) : Option (List Nat × RB) :=
  match read_bytes_c rb (item_size * num_rows) with
  | none => none
  | some (data, rb') =>
    some ((List.range num_rows).map fun x =>
      leVal ((data.drop (x * item_size)).take item_size), rb')

/-- `read_nullable_array` (`dataconv.pyx`): zero rows short-circuits to the
empty tuple with no read; otherwise the `num_rows` mask bytes are read
(and copied to decoder-owned memory) before the value block of
`num_rows * item_size` bytes, and every position with a nonzero mask byte
is replaced by the null marker (`None`, here `Option.none`).  The struct
format code is abstracted to its item size, item values to unsigned
little-endian as in `read_array`. -/
def read_nullable_array (rb : RB) (item_size num_rows : Nat) :
    Option (List (Option Nat) × RB) :=
  if num_rows = 0 then some ([], rb)
  else
    match read_bytes_c rb num_rows with
    | none => none
    | some (null_map, rb1) =>
      match read_bytes_c rb1 (num_rows * item_size) with
      | none => none
      | some (data, rb2) =>
        some ((List.range num_rows).map fun x =>
          if null_map.getD x 0 ≠ 0 then none
          else some (leVal ((data.drop (x * item_size)).take item_size)), rb2)

/-- The little-endian base-128 encoding of the wire format (low 7 bits per
byte, least-significant group first, bit 7 as continuation flag); the
reference encoder for the varint round-trip. -/
def leb128Encode (n : Nat) : List Nat :=
  if h : n < 128 then [n] else (n % 128 + 128) :: leb128Encode (n / 128)
termination_by n
decreasing_by exact Nat.div_lt_self (by omega) (by omega)

/-- Reference varint decoder over a plain byte list, mirroring
`read_leb128_aux` byte for byte. -/
def leb128Pure (sz shift : Nat) : List Nat → Option (Nat × List Nat)
  | [] => none
  | b :: rest =>
    if b &&& 128 = 0 then some ((sz + (b &&& 127) * 2 ^ shift) % 2 ^ 64, rest)
    else leb128Pure ((sz + (b &&& 127) * 2 ^ shift) % 2 ^ 64) (shift + 7) rest

/-- Reference string-column decoder over a plain byte list, mirroring
`read_str_col`. -/
def strColPure (d : List Nat → Option String) : Nat → List Nat → Option (List String × List Nat)
  | 0, s => some ([], s)
  | n + 1, s =>
    match leb128Pure 0 0 s with
    | none => none
    | some (sz, s1) =>
      if sz ≤ s1.length then
        match strColPure d n (s1.drop sz) with
        | none => none
        | some (col, s2) => some (cellOf d (s1.take sz) :: col, s2)
      else none

/-- The wire image of a list of string payloads: each payload preceded by
the LEB128 encoding of its length. -/
def wireOf (ps : List (List Nat)) : List Nat :=
  (ps.map fun p => leb128Encode p.length ++ p).flatten

/-- The integer whose standard big-endian byte representation is the given
byte list (most significant byte first). -/
def beVal (bs : List Nat) : Nat :=
  bs.foldl (fun acc b => acc * 256 + b) 0

/-- Cumulative days before each month, non-leap (`MONTH_DAYS` in
`dataconv.pyx`). -/
def MONTH_DAYS : List Int :=
  [0, 31, 59, 90, 120, 151, 181, 212, 243, 273, 304, 334, 365]

/-- Cumulative days before each month, leap year (`MONTH_DAYS_LEAP`). -/
def MONTH_DAYS_LEAP : List Int :=
  [0, 31, 60, 91, 121, 152, 182, 213, 244, 274, 305, 335, 366]

/-- `m_list[month]`: the C array access, with `boundscheck(False)` an index
outside `0..12` reads unowned memory — modelled as `none`. -/
def monthLookup (l : List Int) (month : Int) : Option Int :=
  if 0 ≤ month ∧ month < 13 then some (l.getD month.toNat 0) else none

/-- The month correction loop of `epoch_days_to_date`
(`prev = m_list[month]; while rem < prev: month -= 1; prev = m_list[month]`),
returning the final `(month, prev)`.  The fuel (13 at the call site) covers
every in-range start `month ≤ 12`, since `month` only decreases. -/
def monthFind (m_list : List Int) (rem : Int) : Int → Nat → Option (Int × Int)
  | _, 0 => none
  | month, fuel + 1 =>
    match monthLookup m_list month with
    | none => none
    | some prev =>
      if rem < prev then monthFind m_list rem (month - 1) fuel
      else some (month, prev)

/-- The general (else) branch of `epoch_days_to_date`: re-base to
1601-01-01 by adding 134774 days and factor out 400-year, 100-year,
4-year and single-year blocks.  C `//` is truncating division
(`Int.tdiv`), `>> 5` an arithmetic shift, `<< 2` a multiplication by 4;
`date(...)` is modelled as the plain `(year, month, day)` triple (its
range validation is not modelled). -/
def general_path (days : Int) : Option (Int × Int × Int) :=
  let cycles400 := (days + 134774).tdiv 146097
  let rem1 := days + 134774 - cycles400 * 146097
  let cycles100 := rem1.tdiv 36524
  let rem2 := rem1 - cycles100 * 36524
  let cycles := rem2.tdiv 1461
  let rem3 := rem2 - cycles * 1461
  let years := rem3.tdiv 365
  let rem4 := rem3 - years * 365
  let year := cycles * 4 + cycles400 * 400 + cycles100 * 100 + years + 1601
  if years = 4 ∨ cycles100 = 4 then some (year - 1, 12, 31)
  else
    let m_list := if years = 3 ∧ (year = 2000 ∨ year % 100 ≠ 0) then MONTH_DAYS_LEAP
      else MONTH_DAYS
    match monthFind m_list rem4 ((rem4 + 24) >>> 5) 13 with
    | none => none
    | some (month, prev) => some (year, month + 1, rem4 + 1 - prev)

/-- `epoch_days_to_date` (`dataconv.pyx`): fast path for
`0 <= days < 47482` (1970-2099, every fourth year leap), general path
otherwise. -/
def epoch_days_to_date (days : Int) : Option (Int × Int × Int) :=
  if 0 ≤ days ∧ days < 47482 then
    let cycles := (days + 365).tdiv 1461
    let rem3 := days + 365 - cycles * 1461
    let years := rem3.tdiv 365
    let rem4 := rem3 - years * 365
    let year := cycles * 4 + years + 1969
    if years = 4 then some (year - 1, 12, 31)
    else
      let m_list := if years = 3 then MONTH_DAYS_LEAP else MONTH_DAYS
      match monthFind m_list rem4 ((rem4 + 24) >>> 5) 13 with
      | none => none
      | some (month, prev) => some (year, month + 1, rem4 + 1 - prev)
  else general_path days

/-- Reference result of `read_uuid_col` over a plain byte stream. -/
def uuidPure (n : Nat) (s : List Nat) : Option (List Nat) :=
  if 16 * n ≤ s.length then
    some ((List.range n).map fun x =>
      let block := ((s.take (16 * n)).drop (16 * x)).take 16
      leVal (block.drop 8 ++ block.take 8))
  else none

/-- Reference result of `read_array` over a plain byte stream. -/
def arrayPure (item_size n : Nat) (s : List Nat) : Option (List Nat) :=
  if item_size * n ≤ s.length then
    some ((List.range n).map fun x =>
      leVal (((s.take (item_size * n)).drop (x * item_size)).take item_size))
  else none

/-- Reference result of `read_nullable_array` over a plain byte stream. -/
def nullablePure (item_size n : Nat) (s : List Nat) : Option (List (Option Nat)) :=
  if n = 0 then some []
  else if n + n * item_size ≤ s.length then
    some ((List.range n).map fun x =>
      if (s.take n).getD x 0 ≠ 0 then none
      else some (leVal ((((s.drop n).take (n * item_size)).drop (x * item_size)).take item_size)))
  else none

theorem growLoop_ge (temp target : Nat) : temp ≤ growLoop temp target := by
  unfold growLoop
  split
  · exact le_trans (by omega) (growLoop_ge (temp * 2) target)
  · exact le_refl temp
termination_by target - temp
decreasing_by omega

theorem growLoop_spec (temp target : Nat) (h : 0 < temp) :
    ∃ k, growLoop temp target = temp * 2 ^ k ∧ target ≤ temp * 2 ^ k ∧
      ∀ j < k, temp * 2 ^ j < target := by
  by_cases hlt : temp < target
  · obtain ⟨k, hk1, hk2, hk3⟩ := growLoop_spec (temp * 2) target (by omega)
    refine ⟨k + 1, ?_, ?_, ?_⟩
    · rw [growLoop, dif_pos ⟨h, hlt⟩, hk1]; ring
    · calc target ≤ temp * 2 * 2 ^ k := hk2
        _ = temp * 2 ^ (k + 1) := by ring
    · intro j hj
      match j with
      | 0 => simpa using hlt
      | j + 1 =>
        have := hk3 j (by omega)
        calc temp * 2 ^ (j + 1) = temp * 2 * 2 ^ j := by ring
          _ < target := this
  · exact ⟨0, by rw [growLoop, dif_neg (by omega)]; ring_nf, by simpa using hlt,
      by omega⟩
termination_by target - temp
decreasing_by omega

theorem bufRest_length {rb : RB} (h : bufWF rb) :
    (bufRest rb).length = rb.buf_sz - rb.buf_loc := by
  obtain ⟨h1, h2⟩ := h
  simp [bufRest, List.length_drop, List.length_take]
  omega

theorem streamRest_initBuffer (chunks : List (List Nat)) :
    streamRest (initBuffer chunks) = chunks.flatten := by
  simp [streamRest, initBuffer, bufRest]

theorem bufWF_initBuffer (chunks : List (List Nat)) : bufWF (initBuffer chunks) := by
  simp [bufWF, initBuffer]

theorem genOK_single (c : List Nat) : genOK [c] := by
  simp [genOK]

theorem genOK_of_nonempty {cs : List (List Nat)} (h : ∀ c ∈ cs, c ≠ []) : genOK cs := by
  induction cs with
  | nil => trivial
  | cons c rest ih =>
    refine ⟨fun hc => absurd hc (h c (by simp)), ih fun c' hc' => h c' (by simp [hc'])⟩

theorem rbWF_initBuffer {cs : List (List Nat)} (h : genOK cs) : rbWF (initBuffer cs) :=
  ⟨bufWF_initBuffer cs, h⟩

theorem read_byte_none {rb : RB} (hwf : bufWF rb) (hs : streamRest rb = []) :
    read_byte rb = none := by
  obtain ⟨gen, buffer, bl, bs, ssz⟩ := rb
  obtain ⟨h1, h2⟩ := hwf
  simp only [streamRest, bufRest, List.append_eq_nil] at hs
  have hble : bs ≤ bl := by
    have := congrArg List.length hs.1
    simp only [List.length_drop, List.length_take, List.length_nil] at this
    simp only at h1 h2 ⊢
    omega
  rw [read_byte, if_neg (by simp only []; omega), read_byte_load]
  rcases gen with _ | ⟨chunk, rest⟩
  · rfl
  · have : chunk = [] := by
      have := hs.2
      simp only [List.flatten_cons, List.append_eq_nil] at this
      exact this.1
    subst this
    rfl

theorem bufRest_nil {rb : RB} (h : rb.buf_sz ≤ rb.buf_loc) : bufRest rb = [] := by
  apply List.drop_eq_nil_of_le
  simp [List.length_take]
  omega

theorem read_byte_some {rb : RB} {b : Nat} {t : List Nat} (hwf : rbWF rb)
    (hs : streamRest rb = b :: t) :
    ∃ rb', read_byte rb = some (b, rb') ∧ streamRest rb' = t ∧ rbWF rb' ∧
      rb'.slice_sz = rb.slice_sz := by
  obtain ⟨⟨h1, h2⟩, hgen⟩ := hwf
  by_cases hlt : rb.buf_loc < rb.buf_sz
  · have hlen : rb.buf_loc < (rb.buffer.take rb.buf_sz).length := by
      simp [List.length_take]; omega
    have hcons : bufRest rb =
        rb.buffer.getD rb.buf_loc 0 :: (rb.buffer.take rb.buf_sz).drop (rb.buf_loc + 1) := by
      rw [bufRest, List.drop_eq_getElem_cons hlen, List.getElem_take,
        List.getD_eq_getElem _ 0 (by omega)]
    rw [streamRest, hcons] at hs
    simp only [List.cons_append, List.cons.injEq] at hs
    refine ⟨{ rb with buf_loc := rb.buf_loc + 1 }, ?_, ?_, ⟨⟨by simp; omega, by simp [h2]⟩, hgen⟩, rfl⟩
    · rw [read_byte, if_pos hlt, hs.1]
    · rw [streamRest, bufRest]
      simpa using hs.2
  · rw [streamRest, bufRest_nil (by omega), List.nil_append] at hs
    obtain ⟨gen, buffer, bl, bs, ssz⟩ := rb
    simp only at hs hgen h1 h2 hlt ⊢
    rcases gen with _ | ⟨chunk, rest⟩
    · simp at hs
    · simp only [genOK] at hgen
      rcases chunk with _ | ⟨b0, cr⟩
      · exfalso
        have hall : ∀ c' ∈ rest, c' = [] := hgen.1 rfl
        have : (rest : List (List Nat)).flatten = [] := by
          simpa [List.flatten_eq_nil_iff] using hall
        simp [this] at hs
      · simp only [List.flatten_cons, List.cons_append, List.cons.injEq] at hs
        obtain ⟨hb, ht⟩ := hs
        subst hb
        by_cases hone : 1 < (b0 :: cr).length
        · simp only [read_byte, read_byte_load, if_neg hlt, if_pos hone]
          refine ⟨_, rfl, ?_, ⟨⟨hone.le, by simp⟩, hgen.2⟩, rfl⟩
          rw [streamRest, bufRest]
          simp only [List.take_length]
          simpa using ht
        · have hcr : cr = [] := by
            simp only [List.length_cons] at hone
            have : cr.length = 0 := by omega
            simpa using this
          subst hcr
          simp only [read_byte, read_byte_load, if_neg hlt, if_neg hone]
          refine ⟨_, rfl, ?_, ⟨⟨le_refl 0, by simp⟩, hgen.2⟩, rfl⟩
          rw [streamRest, bufRest]
          simpa using ht


theorem fillLoop_some (sz : Nat) :
    ∀ (gen : List (List Nat)) (acc buffer : List Nat) (bl bs ssz : Nat),
      acc.length ≤ sz →
      (acc.length < sz → bl = bs) →
      bl ≤ bs → bs ≤ buffer.length →
      sz ≤ acc.length + ((buffer.take bs).drop bl).length + gen.flatten.length →
      ∃ rb', fillLoop sz gen acc buffer bl bs ssz =
          some ((acc ++ (buffer.take bs).drop bl ++ gen.flatten).take sz, rb') ∧
        streamRest rb' = (acc ++ (buffer.take bs).drop bl ++ gen.flatten).drop sz ∧
        bufWF rb' ∧ rb'.slice_sz = ssz ∧ (genOK gen → genOK rb'.gen) := by
  intro gen
  induction gen with
  | nil =>
    intro acc buffer bl bs ssz hle hinv h1 h2 htot
    have hlt : ¬ acc.length < sz := by
      intro hlt
      have hbl := hinv hlt
      have : ((buffer.take bs).drop bl).length = 0 := by
        simp [List.length_take, hbl]
      simp [this] at htot
      omega
    have htake : (acc ++ (buffer.take bs).drop bl ++ List.flatten ([] : List (List Nat))).take sz
        = acc := by
      rw [List.append_assoc, List.take_append_of_le_length (by omega),
        List.take_of_length_le (by omega)]
    have hdrop : (acc ++ (buffer.take bs).drop bl ++ List.flatten ([] : List (List Nat))).drop sz
        = (buffer.take bs).drop bl ++ List.flatten ([] : List (List Nat)) := by
      rw [List.append_assoc, List.drop_append_of_le_length (by omega),
        List.drop_eq_nil_of_le (by omega), List.nil_append]
    rw [fillLoop, if_neg hlt, htake]
    exact ⟨_, rfl, by rw [hdrop]; rfl, ⟨h1, h2⟩, rfl, fun h => h⟩
  | cons chunk rest ih =>
    intro acc buffer bl bs ssz hle hinv h1 h2 htot
    by_cases hlt : acc.length < sz
    · have hbuf : (buffer.take bs).drop bl = [] := by
        rw [hinv hlt]
        exact List.drop_eq_nil_of_le (by simp [List.length_take])
      rw [fillLoop, if_pos hlt]
      simp only [hbuf, List.append_nil, List.nil_append, List.length_nil, add_zero,
        List.flatten_cons, List.length_append] at htot ⊢
      by_cases hfit : acc.length + chunk.length ≤ sz
      · rw [if_pos hfit]
        obtain ⟨rb', heq, hrest, hwf, hssz, hgen⟩ :=
          ih (acc ++ chunk) buffer bl bs ssz (by simp; omega) (fun _ => hinv hlt) h1 h2
            (by simp only [List.length_append, hbuf, List.length_nil, add_zero]; omega)
        rw [hbuf, List.append_nil] at heq hrest
        refine ⟨rb', ?_, ?_, hwf, hssz, fun h => hgen h.2⟩
        · rw [heq, List.append_assoc]
        · rw [hrest, List.append_assoc]
      · rw [if_neg hfit]
        have htail : sz - acc.length ≤ chunk.length := by omega
        have hacc' : (acc ++ chunk.take (sz - acc.length)).length = sz := by
          simp [List.length_take]
          omega
        obtain ⟨rb', heq, hrest, hwf, hssz, hgen⟩ :=
          ih (acc ++ chunk.take (sz - acc.length)) chunk (sz - acc.length) chunk.length ssz
            (by omega) (by omega) htail le_rfl (by omega)
        have hsplit : acc ++ chunk.take (sz - acc.length) ++
            (chunk.take chunk.length).drop (sz - acc.length) ++ rest.flatten =
            acc ++ (chunk ++ rest.flatten) := by
          rw [List.take_length]
          simp only [List.append_assoc, List.take_append_drop]
        rw [hsplit] at heq hrest
        exact ⟨rb', heq, hrest, hwf, hssz, fun h => hgen h.2⟩
    · have htake : (acc ++ (buffer.take bs).drop bl ++ (chunk :: rest).flatten).take sz
          = acc := by
        rw [List.append_assoc, List.take_append_of_le_length (by omega),
          List.take_of_length_le (by omega)]
      have hdrop : (acc ++ (buffer.take bs).drop bl ++ (chunk :: rest).flatten).drop sz
          = (buffer.take bs).drop bl ++ (chunk :: rest).flatten := by
        rw [List.append_assoc, List.drop_append_of_le_length (by omega),
          List.drop_eq_nil_of_le (by omega), List.nil_append]
      rw [fillLoop, if_neg hlt, htake]
      exact ⟨_, rfl, by rw [hdrop]; rfl, ⟨h1, h2⟩, rfl, fun h => h⟩

theorem fillLoop_none (sz : Nat) :
    ∀ (gen : List (List Nat)) (acc buffer : List Nat) (bl bs ssz : Nat),
      acc.length + gen.flatten.length < sz →
      fillLoop sz gen acc buffer bl bs ssz = none := by
  intro gen
  induction gen with
  | nil =>
    intro acc buffer bl bs ssz htot
    simp only [List.flatten_nil, List.length_nil, add_zero] at htot
    rw [fillLoop, if_pos htot]
  | cons chunk rest ih =>
    intro acc buffer bl bs ssz htot
    simp only [List.flatten_cons, List.length_append] at htot
    rw [fillLoop, if_pos (by omega)]
    rw [if_pos (by omega)]
    exact ih (acc ++ chunk) buffer bl bs ssz (by simp only [List.length_append]; omega)

theorem read_bytes_c_some {rb : RB} {sz : Nat} (hwf : bufWF rb)
    (hsz : sz ≤ (streamRest rb).length) :
    ∃ rb', read_bytes_c rb sz = some ((streamRest rb).take sz, rb') ∧
      streamRest rb' = (streamRest rb).drop sz ∧ bufWF rb' ∧
      rb.slice_sz ≤ rb'.slice_sz ∧ (genOK rb.gen → genOK rb'.gen) := by
  obtain ⟨h1, h2⟩ := hwf
  by_cases hfast : rb.buf_loc + sz ≤ rb.buf_sz
  · have hval : (streamRest rb).take sz = (rb.buffer.drop rb.buf_loc).take sz := by
      rw [streamRest, bufRest,
        List.take_append_of_le_length (by rw [List.length_drop, List.length_take]; omega)]
      conv_lhs => rw [List.take_drop, List.take_take]
      rw [min_eq_left hfast, ← List.take_drop]
    refine ⟨{ rb with buf_loc := rb.buf_loc + sz }, ?_, ?_, ⟨by simp; omega, by simp [h2]⟩,
      le_refl _, fun h => h⟩
    · rw [read_bytes_c, if_pos hfast, hval]
    · rw [streamRest, streamRest, bufRest, bufRest]
      simp only []
      rw [List.drop_append_of_le_length (by rw [List.length_drop, List.length_take]; omega),
        List.drop_drop]
  · rw [read_bytes_c, if_neg hfast]
    have hlen : (bufRest rb).length = rb.buf_sz - rb.buf_loc := bufRest_length ⟨h1, h2⟩
    obtain ⟨rb', heq, hrest, hwf', hssz, hgen⟩ :=
      fillLoop_some sz rb.gen (bufRest rb) rb.buffer 0 0
        (if rb.slice_sz < growLoop rb.slice_sz (sz * 2) then growLoop rb.slice_sz (sz * 2)
          else rb.slice_sz)
        (by omega) (by omega) (le_refl 0) (Nat.zero_le _)
        (by
          rw [streamRest, List.length_append] at hsz
          simpa using hsz)
    have hbuf0 : (rb.buffer.take 0).drop 0 = [] := by simp
    rw [hbuf0, List.append_nil] at heq hrest
    refine ⟨rb', heq, hrest, hwf', ?_, hgen⟩
    rw [hssz]
    split
    · exact growLoop_ge _ _
    · exact le_refl _

theorem read_bytes_c_none {rb : RB} {sz : Nat} (hwf : bufWF rb)
    (hsz : (streamRest rb).length < sz) :
    read_bytes_c rb sz = none := by
  obtain ⟨h1, h2⟩ := hwf
  have hlen : (bufRest rb).length = rb.buf_sz - rb.buf_loc := bufRest_length ⟨h1, h2⟩
  rw [streamRest, List.length_append] at hsz
  rw [read_bytes_c, if_neg (by omega)]
  exact fillLoop_none sz rb.gen (bufRest rb) rb.buffer 0 0 _ (by omega)

theorem read_leb128_aux_none {rb : RB} (sz shift : Nat) (h : read_byte rb = none) :
    read_leb128_aux rb sz shift = none := by
  rw [read_leb128_aux]
  split
  · rfl
  · rename_i b rb1 heq
    rw [heq] at h
    cases h

theorem read_leb128_aux_byte {rb : RB} {b : Nat} {rb1 : RB} (sz shift : Nat)
    (h : read_byte rb = some (b, rb1)) :
    read_leb128_aux rb sz shift =
      if b &&& 128 = 0 then some ((sz + (b &&& 127) * 2 ^ shift) % 2 ^ 64, rb1)
      else read_leb128_aux rb1 ((sz + (b &&& 127) * 2 ^ shift) % 2 ^ 64) (shift + 7) := by
  rw [read_leb128_aux]
  split
  · rename_i heq
    rw [heq] at h
    cases h
  · rename_i b' rb' heq
    rw [heq] at h
    simp only [Option.some.injEq, Prod.mk.injEq] at h
    rw [h.1, h.2]

theorem leb128_aux_pure (n : Nat) :
    ∀ (rb : RB) (sz shift : Nat), rbWF rb → (streamRest rb).length ≤ n →
      (leb128Pure sz shift (streamRest rb) = none → read_leb128_aux rb sz shift = none) ∧
      (∀ v rest, leb128Pure sz shift (streamRest rb) = some (v, rest) →
        ∃ rb', read_leb128_aux rb sz shift = some (v, rb') ∧ streamRest rb' = rest ∧
          rbWF rb' ∧ rb'.slice_sz = rb.slice_sz) := by
  induction n with
  | zero =>
    intro rb sz shift hwf hlen
    have hnil : streamRest rb = [] := List.eq_nil_of_length_eq_zero (by omega)
    rw [hnil, read_leb128_aux_none sz shift (read_byte_none hwf.1 hnil)]
    exact ⟨fun _ => rfl, fun v rest h => by simp [leb128Pure] at h⟩
  | succ n ih =>
    intro rb sz shift hwf hlen
    match hs : streamRest rb with
    | [] =>
      rw [read_leb128_aux_none sz shift (read_byte_none hwf.1 hs)]
      exact ⟨fun _ => rfl, fun v rest h => by simp [leb128Pure] at h⟩
    | b :: t =>
      obtain ⟨rb1, hread, hrest1, hwf1, hssz1⟩ := read_byte_some hwf hs
      rw [read_leb128_aux_byte sz shift hread]
      by_cases hflag : b &&& 128 = 0
      · rw [leb128Pure, if_pos hflag]
        simp only [if_pos hflag]
        exact ⟨fun h => by simp at h,
          fun v rest h => by
            simp only [Option.some.injEq, Prod.mk.injEq] at h
            exact ⟨rb1, by rw [h.1], by rw [hrest1, h.2], hwf1, hssz1⟩⟩
      · rw [leb128Pure, if_neg hflag]
        simp only [if_neg hflag]
        have hlen1 : (streamRest rb1).length ≤ n := by
          rw [hrest1]
          have := congrArg List.length hs
          simp only [List.length_cons] at this
          omega
        obtain ⟨ihn, ihs⟩ := ih rb1 ((sz + (b &&& 127) * 2 ^ shift) % 2 ^ 64) (shift + 7)
          hwf1 hlen1
        rw [hrest1] at ihn ihs
        exact ⟨ihn, fun v rest h => by
          obtain ⟨rb', h1, h2, h3, h4⟩ := ihs v rest h
          exact ⟨rb', h1, h2, h3, by rw [h4, hssz1]⟩⟩

theorem land_bytes : ∀ k, k < 128 →
    (k &&& 127 = k ∧ k &&& 128 = 0 ∧ (k + 128) &&& 127 = k ∧ (k + 128) &&& 128 = 128) := by
  decide

theorem leb128Pure_encode (n : Nat) :
    ∀ (sz shift : Nat) (tail : List Nat),
      leb128Pure sz shift (leb128Encode n ++ tail) =
        some ((sz + n * 2 ^ shift) % 2 ^ 64, tail) := by
  by_cases h : n < 128
  · intro sz shift tail
    obtain ⟨hl, hf, _, _⟩ := land_bytes n h
    rw [leb128Encode, dif_pos h]
    rw [List.cons_append, leb128Pure, if_pos hf, hl, List.nil_append]
  · intro sz shift tail
    obtain ⟨_, _, hl, hf⟩ := land_bytes (n % 128) (Nat.mod_lt n (by omega))
    rw [leb128Encode, dif_neg h]
    rw [List.cons_append, leb128Pure, if_neg (by rw [hf]; omega), hl]
    rw [leb128Pure_encode (n / 128)]
    congr 1
    congr 1
    rw [Nat.mod_add_mod]
    congr 1
    have h7 : (2 : Nat) ^ (shift + 7) = 2 ^ shift * 128 := by ring
    rw [h7, Nat.add_assoc]
    congr 1
    calc n % 128 * 2 ^ shift + n / 128 * (2 ^ shift * 128)
        = (n % 128 + 128 * (n / 128)) * 2 ^ shift := by ring
      _ = n * 2 ^ shift := by rw [Nat.mod_add_div]
termination_by n
decreasing_by exact Nat.div_lt_self (by omega) (by omega)

theorem str_col_pure (d : List Nat → Option String) :
    ∀ (n : Nat) (rb : RB), rbWF rb →
      (strColPure d n (streamRest rb) = none → read_str_col d n rb = none) ∧
      (∀ col rest, strColPure d n (streamRest rb) = some (col, rest) →
        ∃ rb', read_str_col d n rb = some (col, rb') ∧ streamRest rb' = rest ∧
          rbWF rb' ∧ rb.slice_sz ≤ rb'.slice_sz) := by
  intro n
  induction n with
  | zero =>
    intro rb hwf
    refine ⟨fun h => by simp [strColPure] at h, fun col rest h => ?_⟩
    rw [strColPure] at h
    simp only [Option.some.injEq, Prod.mk.injEq] at h
    exact ⟨rb, by rw [read_str_col, h.1], by rw [h.2], hwf, le_refl _⟩
  | succ n ih =>
    intro rb hwf
    obtain ⟨hn0, hs0⟩ := leb128_aux_pure (streamRest rb).length rb 0 0 hwf (le_refl _)
    match hleb : leb128Pure 0 0 (streamRest rb) with
    | none =>
      rw [read_str_col]
      simp only [hn0 hleb]
      exact ⟨fun _ => trivial, fun col rest h => by rw [strColPure, hleb] at h; cases h⟩
    | some (szv, s1) =>
      obtain ⟨rb1, haux, hrest1, hwf1, hssz1⟩ := hs0 szv s1 hleb
      rw [read_str_col]
      simp only [haux]
      by_cases hfit : szv ≤ s1.length
      · obtain ⟨rb2, hbytes, hrest2, hbwf2, hssz2, hgen2⟩ :=
          @read_bytes_c_some rb1 szv hwf1.1 (by rw [hrest1]; exact hfit)
        rw [hrest1] at hbytes hrest2
        simp only [hbytes]
        have hwf2 : rbWF rb2 := ⟨hbwf2, hgen2 hwf1.2⟩
        obtain ⟨ihn, ihs⟩ := ih rb2 hwf2
        rw [hrest2] at ihn ihs
        constructor
        · intro h
          rw [strColPure, hleb] at h
          simp only [if_pos hfit] at h
          match hrec : strColPure d n (s1.drop szv) with
          | none => simp only [ihn hrec]
          | some (col2, rest2) => rw [hrec] at h; cases h
        · intro col rest h
          rw [strColPure, hleb] at h
          simp only [if_pos hfit] at h
          match hrec : strColPure d n (s1.drop szv) with
          | none => rw [hrec] at h; cases h
          | some (col2, rest2) =>
            rw [hrec] at h
            simp only [Option.some.injEq, Prod.mk.injEq] at h
            obtain ⟨rb3, hr1, hr2, hr3, hr4⟩ := ihs col2 rest2 hrec
            refine ⟨rb3, ?_, by rw [hr2, h.2], hr3, by rw [← hssz1]; omega⟩
            simp only [hr1, ← h.1]
      · rw [@read_bytes_c_none rb1 szv hwf1.1 (by rw [hrest1]; omega)]
        refine ⟨fun _ => rfl, fun col rest h => ?_⟩
        rw [strColPure, hleb] at h
        simp only [if_neg hfit] at h
        cases h

theorem strColPure_encode (d : List Nat → Option String) :
    ∀ (ps : List (List Nat)) (tail : List Nat), (∀ p ∈ ps, p.length < 2 ^ 64) →
      strColPure d ps.length (wireOf ps ++ tail) = some (ps.map (cellOf d), tail) := by
  intro ps
  induction ps with
  | nil => intro tail _; simp [wireOf, strColPure]
  | cons p ps ih =>
    intro tail hlen
    have hwire : wireOf (p :: ps) ++ tail =
        leb128Encode p.length ++ (p ++ (wireOf ps ++ tail)) := by
      rw [wireOf, List.map_cons, List.flatten_cons]
      simp [List.append_assoc, wireOf]
    have hmod : (0 + p.length * 2 ^ 0) % 2 ^ 64 = p.length := by
      rw [Nat.zero_add, pow_zero, Nat.mul_one]
      exact Nat.mod_eq_of_lt (hlen p (by simp))
    rw [List.length_cons, strColPure, hwire, leb128Pure_encode]
    simp only [hmod, if_pos (by simp : p.length ≤ (p ++ (wireOf ps ++ tail)).length)]
    rw [List.take_append_of_le_length (le_refl _), List.take_of_length_le (le_refl _),
      List.drop_append_of_le_length (le_refl _), List.drop_eq_nil_of_le (le_refl _),
      List.nil_append]
    simp only [ih tail fun q hq => hlen q (by simp [hq])]
    rw [List.map_cons]

theorem read_bytes_c_fst {rb : RB} (sz : Nat) (hwf : bufWF rb) :
    Option.map Prod.fst (read_bytes_c rb sz) =
      if sz ≤ (streamRest rb).length then some ((streamRest rb).take sz) else none := by
  by_cases h : sz ≤ (streamRest rb).length
  · obtain ⟨rb', heq, _, _, _, _⟩ := read_bytes_c_some hwf h
    rw [heq, if_pos h]
    rfl
  · rw [read_bytes_c_none hwf (by omega), if_neg h]
    rfl

theorem read_leb128_fst {rb : RB} (hwf : rbWF rb) :
    Option.map Prod.fst (read_leb128 rb) =
      Option.map Prod.fst (leb128Pure 0 0 (streamRest rb)) := by
  obtain ⟨hn, hs⟩ := leb128_aux_pure (streamRest rb).length rb 0 0 hwf (le_refl _)
  rw [read_leb128]
  match h : leb128Pure 0 0 (streamRest rb) with
  | none => rw [hn h]; rfl
  | some (v, rest) =>
    obtain ⟨rb', h1, _, _, _⟩ := hs v rest h
    rw [h1]
    rfl

theorem read_str_col_fst (d : List Nat → Option String) (n : Nat) {rb : RB} (hwf : rbWF rb) :
    Option.map Prod.fst (read_str_col d n rb) =
      Option.map Prod.fst (strColPure d n (streamRest rb)) := by
  obtain ⟨hn, hs⟩ := str_col_pure d n rb hwf
  match h : strColPure d n (streamRest rb) with
  | none => rw [hn h]; rfl
  | some (col, rest) =>
    obtain ⟨rb', h1, _, _, _⟩ := hs col rest h
    rw [h1]
    rfl

theorem read_uuid_col_fst {rb : RB} (n : Nat) (hwf : bufWF rb) :
    Option.map Prod.fst (read_uuid_col rb n) = uuidPure n (streamRest rb) := by
  rw [read_uuid_col, uuidPure]
  by_cases h : 16 * n ≤ (streamRest rb).length
  · obtain ⟨rb', heq, _, _, _, _⟩ := read_bytes_c_some hwf h
    rw [if_pos h]
    simp only [heq]
    rfl
  · rw [read_bytes_c_none hwf (by omega), if_neg h]
    rfl

theorem read_array_fst {rb : RB} (item_size n : Nat) (hwf : bufWF rb) :
    Option.map Prod.fst (read_array rb item_size n) =
      arrayPure item_size n (streamRest rb) := by
  rw [read_array, arrayPure]
  by_cases h : item_size * n ≤ (streamRest rb).length
  · obtain ⟨rb', heq, _, _, _, _⟩ := read_bytes_c_some hwf h
    rw [if_pos h]
    simp only [heq]
    rfl
  · rw [read_bytes_c_none hwf (by omega), if_neg h]
    rfl

theorem read_nullable_array_fst {rb : RB} (item_size n : Nat) (hwf : bufWF rb) :
    Option.map Prod.fst (read_nullable_array rb item_size n) =
      nullablePure item_size n (streamRest rb) := by
  rw [read_nullable_array, nullablePure]
  by_cases hz : n = 0
  · rw [if_pos hz, if_pos hz]
    rfl
  · rw [if_neg hz, if_neg hz]
    by_cases h1 : n ≤ (streamRest rb).length
    · obtain ⟨rb1, heq1, hrest1, hwf1, _, _⟩ := read_bytes_c_some hwf h1
      simp only [heq1]
      by_cases h2 : n + n * item_size ≤ (streamRest rb).length
      · obtain ⟨rb2, heq2, hrest2, hwf2, _, _⟩ :=
          @read_bytes_c_some rb1 (n * item_size) hwf1
            (by rw [hrest1, List.length_drop]; omega)
        rw [hrest1] at heq2
        simp only [heq2, if_pos h2]
        rfl
      · rw [@read_bytes_c_none rb1 (n * item_size) hwf1
          (by rw [hrest1, List.length_drop]; omega), if_neg h2]
        rfl
    · rw [read_bytes_c_none hwf (by omega)]
      rw [if_neg (by omega)]
      rfl

/-- Claim C1: decoding is invariant under re-chunking.  For every logical
byte sequence `S` and every split of `S` into (nonzero-length) chunks,
each decoder — the length-prefixed string column reader, the raw byte
read, the varint reader, the UUID column reader, the numeric bulk-array
reader and the nullable-array reader — produces the same result (same
column, or failure in both) over the split source as over the single
chunk containing all of `S`; the 1-byte-chunks split is the instance
`cs = S.map (fun b => [b])`. -/
theorem c1_chunk_split_invariance (S : List Nat) (cs : List (List Nat))
    (hflat : cs.flatten = S) (hne : ∀ c ∈ cs, c ≠ []) :
    (∀ (d : List Nat → Option String) (n : Nat),
      Option.map Prod.fst (read_str_col d n (initBuffer cs)) =
        Option.map Prod.fst (read_str_col d n (initBuffer [S]))) ∧
    (∀ sz, Option.map Prod.fst (read_bytes_c (initBuffer cs) sz) =
      Option.map Prod.fst (read_bytes_c (initBuffer [S]) sz)) ∧
    (Option.map Prod.fst (read_leb128 (initBuffer cs)) =
      Option.map Prod.fst (read_leb128 (initBuffer [S]))) ∧
    (∀ n, Option.map Prod.fst (read_uuid_col (initBuffer cs) n) =
      Option.map Prod.fst (read_uuid_col (initBuffer [S]) n)) ∧
    (∀ item_size n, Option.map Prod.fst (read_array (initBuffer cs) item_size n) =
      Option.map Prod.fst (read_array (initBuffer [S]) item_size n)) ∧
    (∀ item_size n,
      Option.map Prod.fst (read_nullable_array (initBuffer cs) item_size n) =
        Option.map Prod.fst (read_nullable_array (initBuffer [S]) item_size n)) := by
  have hs1 : streamRest (initBuffer cs) = S := by rw [streamRest_initBuffer, hflat]
  have hs2 : streamRest (initBuffer [S]) = S := by rw [streamRest_initBuffer]; simp
  have hwf1 : rbWF (initBuffer cs) := rbWF_initBuffer (genOK_of_nonempty hne)
  have hwf2 : rbWF (initBuffer [S]) := rbWF_initBuffer (genOK_single S)
  refine ⟨fun d n => ?_, fun sz => ?_, ?_, fun n => ?_, fun item_size n => ?_,
    fun item_size n => ?_⟩
  · rw [read_str_col_fst d n hwf1, read_str_col_fst d n hwf2, hs1, hs2]
  · rw [read_bytes_c_fst sz hwf1.1, read_bytes_c_fst sz hwf2.1, hs1, hs2]
  · rw [read_leb128_fst hwf1, read_leb128_fst hwf2, hs1, hs2]
  · rw [read_uuid_col_fst n hwf1.1, read_uuid_col_fst n hwf2.1, hs1, hs2]
  · rw [read_array_fst item_size n hwf1.1, read_array_fst item_size n hwf2.1, hs1, hs2]
  · rw [read_nullable_array_fst item_size n hwf1.1, read_nullable_array_fst item_size n hwf2.1,
      hs1, hs2]

/-- Witness for C1 at a concrete input: the two-chunk split `[[1],[97]]`
against the single chunk `[1, 97]` (one length-prefixed string "a"). -/
theorem c1_witness :
    Option.map Prod.fst (read_str_col (fun _ => none) 1 (initBuffer [[1], [97]])) =
      Option.map Prod.fst (read_str_col (fun _ => none) 1 (initBuffer [[1, 97]])) :=
  (c1_chunk_split_invariance [1, 97] [[1], [97]] rfl (by decide)).1 (fun _ => none) 1

/-- Claim C3: varint round-trip.  For every `v < 2 ^ 64`, encoding `v` in
the little-endian base-128 scheme (`leb128Encode`) and decoding with
`read_leb128` yields exactly `v`; `v = 0`, `127`, `128`, `2 ^ 63` and
`2 ^ 64 - 1` are instances. -/
theorem c3_varint_round_trip (v : Nat) (hv : v < 2 ^ 64) :
    Option.map Prod.fst (read_leb128 (initBuffer [leb128Encode v])) = some v := by
  have hs : streamRest (initBuffer [leb128Encode v]) = leb128Encode v ++ [] := by
    rw [streamRest_initBuffer, List.flatten_cons, List.flatten_nil]
  rw [read_leb128_fst (rbWF_initBuffer (genOK_single _)), hs, leb128Pure_encode]
  simp only [Option.map, Nat.zero_add, pow_zero, Nat.mul_one]
  rw [Nat.mod_eq_of_lt hv]

/-- Witness for C3 at the largest 64-bit value. -/
theorem c3_witness :
    Option.map Prod.fst (read_leb128 (initBuffer [leb128Encode (2 ^ 64 - 1)])) =
      some (2 ^ 64 - 1) :=
  c3_varint_round_trip (2 ^ 64 - 1) (by norm_num)

/-- Claim C4: length-prefixed string decoding with hex fallback.  For any
list of payloads `ps` laid out on the wire as LEB128 length prefixes plus
payload bytes, and any encoding (abstract decode function `d`), the
string column reader succeeds (never raises), returns exactly
`ps.length` cells in wire order, consumes exactly the prefixed bytes
(nothing of the stream remains), and each cell whose payload is invalid
in the encoding (`d p = none`) is the lowercase hex string of exactly
those payload bytes. -/
theorem c4_string_hex_fallback (ps : List (List Nat)) (d : List Nat → Option String)
    (hlen : ∀ p ∈ ps, p.length < 2 ^ 64) :
    (∀ p ∈ ps, d p = none → cellOf d p = hexString p) ∧
    ∃ rb', read_str_col d ps.length (initBuffer [wireOf ps]) =
        some (ps.map (cellOf d), rb') ∧ streamRest rb' = [] ∧
      (ps.map (cellOf d)).length = ps.length := by
  refine ⟨fun p _ hd => by rw [cellOf, hd], ?_⟩
  have hs : streamRest (initBuffer [wireOf ps]) = wireOf ps ++ [] := by
    rw [streamRest_initBuffer, List.flatten_cons, List.flatten_nil]
  obtain ⟨_, hsome⟩ :=
    str_col_pure d ps.length (initBuffer [wireOf ps]) (rbWF_initBuffer (genOK_single _))
  obtain ⟨rb', h1, h2, _, _⟩ := hsome (ps.map (cellOf d)) []
    (by rw [hs, strColPure_encode d ps [] hlen])
  exact ⟨rb', h1, h2, by rw [List.length_map]⟩

/-- Witness for C4: a single one-byte payload `0xff` (not valid UTF-8),
with a decode function that always fails; the cell is the hex string of
that byte. -/
theorem c4_witness :
    (∀ p ∈ [[255]], (fun (_ : List Nat) => (none : Option String)) p = none →
      cellOf (fun _ => none) p = hexString p) ∧
    ∃ rb', read_str_col (fun _ => none) 1 (initBuffer [wireOf [[255]]]) =
        some ([[255]].map (cellOf fun _ => none), rb') ∧ streamRest rb' = [] ∧
      ([[255]].map (cellOf fun _ => none)).length = 1 :=
  c4_string_hex_fallback [[255]] (fun _ => none) (by decide)

/-- Claim C7: end-of-stream failures.  A byte read that needs a new chunk
fails when the generator is exhausted or yields a zero-length chunk; a
bulk read of `sz` bytes fails whenever fewer than `sz` bytes remain in
the whole stream (in particular when a zero-length terminal chunk is
reached with bytes still missing); and the failure propagates through
the varint reader and the string column reader with no internal retry. -/
theorem c7_end_of_stream (rb : RB) :
    (rb.buf_sz ≤ rb.buf_loc → (rb.gen = [] ∨ ∃ rest, rb.gen = [] :: rest) →
      read_byte rb = none) ∧
    (∀ sz, bufWF rb → (streamRest rb).length < sz → read_bytes_c rb sz = none) ∧
    (∀ sz shift, read_byte rb = none → read_leb128_aux rb sz shift = none) ∧
    (∀ d n, read_leb128_aux rb 0 0 = none → read_str_col d (n + 1) rb = none) := by
  refine ⟨fun hb hgen => ?_, fun sz hwf hlen => read_bytes_c_none hwf hlen,
    fun sz shift h => read_leb128_aux_none sz shift h, fun d n h => ?_⟩
  · rw [read_byte, if_neg (by omega), read_byte_load]
    rcases hgen with h | ⟨rest, h⟩ <;> rw [h]
  · rw [read_str_col]
    simp only [h]

/-- Witness for C7: reading from an already-exhausted source fails. -/
theorem c7_witness : read_bytes_c (initBuffer []) 1 = none :=
  (c7_end_of_stream (initBuffer [])).2.1 1 (bufWF_initBuffer []) (by decide)

theorem fillLoop_slice (sz : Nat) :
    ∀ (gen : List (List Nat)) (acc buffer : List Nat) (bl bs ssz : Nat) (d : List Nat)
      (rb' : RB), fillLoop sz gen acc buffer bl bs ssz = some (d, rb') →
      rb'.slice_sz = ssz := by
  intro gen
  induction gen with
  | nil =>
    intro acc buffer bl bs ssz d rb' h
    rw [fillLoop] at h
    split at h
    · cases h
    · simp only [Option.some.injEq, Prod.mk.injEq] at h
      rw [← h.2]
  | cons chunk rest ih =>
    intro acc buffer bl bs ssz d rb' h
    rw [fillLoop] at h
    split at h
    · split at h
      · exact ih _ _ _ _ _ _ _ h
      · exact ih _ _ _ _ _ _ _ h
    · simp only [Option.some.injEq, Prod.mk.injEq] at h
      rw [← h.2]

theorem read_bytes_c_slice_mono {rb : RB} {sz : Nat} {d : List Nat} {rb' : RB}
    (h : read_bytes_c rb sz = some (d, rb')) : rb.slice_sz ≤ rb'.slice_sz := by
  rw [read_bytes_c] at h
  split at h
  · simp only [Option.some.injEq, Prod.mk.injEq] at h
    rw [← h.2]
  · rw [fillLoop_slice sz rb.gen (bufRest rb) rb.buffer 0 0 _ d rb' h]
    split
    · exact growLoop_ge _ _
    · exact le_refl _

theorem read_byte_slice {rb : RB} {b : Nat} {rb' : RB}
    (h : read_byte rb = some (b, rb')) : rb.slice_sz = rb'.slice_sz := by
  rw [read_byte] at h
  split at h
  · simp only [Option.some.injEq, Prod.mk.injEq] at h
    rw [← h.2]
  · rw [read_byte_load] at h
    split at h
    · cases h
    · split at h
      · cases h
      · split at h <;>
        · simp only [Option.some.injEq, Prod.mk.injEq] at h
          rw [← h.2]

theorem read_byte_rbBytes_lt {rb : RB} {b : Nat} {rb' : RB}
    (h : read_byte rb = some (b, rb')) : rbBytes rb' < rbBytes rb := by
  simp only [read_byte, read_byte_load] at h
  rcases rb with ⟨gen, buffer, bl, bs, ssz⟩
  simp only [rbBytes]
  by_cases hlt : bl < bs
  · simp only [if_pos hlt, Option.some.injEq, Prod.mk.injEq] at h
    rw [← h.2]
    simp only []
    omega
  · simp only [if_neg hlt] at h
    rcases gen with _ | ⟨chunk, rest⟩
    · simp at h
    · rcases chunk with _ | ⟨b0, cr⟩
      · simp at h
      · by_cases hone : 1 < (b0 :: cr).length
        · simp only [if_pos hone, Option.some.injEq, Prod.mk.injEq] at h
          rw [← h.2]
          simp only [List.map_cons, List.sum_cons, List.length_cons]
          omega
        · simp only [if_neg hone, Option.some.injEq, Prod.mk.injEq] at h
          rw [← h.2]
          simp only [List.map_cons, List.sum_cons, List.length_cons]
          omega

theorem leb128_aux_slice (N : Nat) :
    ∀ (rb : RB) (sz shift v : Nat) (rb' : RB), rbBytes rb ≤ N →
      read_leb128_aux rb sz shift = some (v, rb') → rb.slice_sz = rb'.slice_sz := by
  induction N with
  | zero =>
    intro rb sz shift v rb' hN h
    match hb : read_byte rb with
    | none => rw [read_leb128_aux_none sz shift hb] at h; cases h
    | some (b, rb1) =>
      have := read_byte_rbBytes_lt hb
      omega
  | succ N ih =>
    intro rb sz shift v rb' hN h
    match hb : read_byte rb with
    | none => rw [read_leb128_aux_none sz shift hb] at h; cases h
    | some (b, rb1) =>
      rw [read_leb128_aux_byte sz shift hb] at h
      have hs1 := read_byte_slice hb
      have hlt := read_byte_rbBytes_lt hb
      split at h
      · simp only [Option.some.injEq, Prod.mk.injEq] at h
        rw [hs1, h.2]
      · rw [hs1]
        exact ih rb1 _ _ v rb' (by omega) h

theorem read_str_col_slice_mono (d : List Nat → Option String) :
    ∀ (n : Nat) (rb : RB) (col : List String) (rb' : RB),
      read_str_col d n rb = some (col, rb') → rb.slice_sz ≤ rb'.slice_sz := by
  intro n
  induction n with
  | zero =>
    intro rb col rb' h
    rw [read_str_col] at h
    simp only [Option.some.injEq, Prod.mk.injEq] at h
    rw [h.2]
  | succ n ih =>
    intro rb col rb' h
    rw [read_str_col] at h
    match h1 : read_leb128_aux rb 0 0 with
    | none => rw [h1] at h; cases h
    | some (szv, rb1) =>
      simp only [h1] at h
      match h2 : read_bytes_c rb1 szv with
      | none => rw [h2] at h; cases h
      | some (payload, rb2) =>
        simp only [h2] at h
        match h3 : read_str_col d n rb2 with
        | none => rw [h3] at h; cases h
        | some (col2, rb3) =>
          rw [h3] at h
          simp only [Option.some.injEq, Prod.mk.injEq] at h
          calc rb.slice_sz = rb1.slice_sz := leb128_aux_slice (rbBytes rb) rb 0 0 szv rb1
                (le_refl _) h1
            _ ≤ rb2.slice_sz := read_bytes_c_slice_mono h2
            _ ≤ rb3.slice_sz := ih rb2 col2 rb3 h3
            _ = rb'.slice_sz := by rw [h.2]

/-- Claim C9: scratch-capacity growth.  When a read of size `sz` does not
fit inside the buffered chunk region (straddles) and the current scratch
capacity is under `2 * sz`, the resulting capacity is exactly the
smallest power-of-two multiple of the old capacity that is at least
`2 * sz`; and no cursor operation ever shrinks the scratch capacity. -/
theorem c9_scratch_growth :
    (∀ (rb : RB) (sz : Nat) (d : List Nat) (rb' : RB),
      rb.buf_sz < rb.buf_loc + sz → rb.slice_sz < 2 * sz → 0 < rb.slice_sz →
      read_bytes_c rb sz = some (d, rb') →
      ∃ k, rb'.slice_sz = rb.slice_sz * 2 ^ k ∧ 2 * sz ≤ rb'.slice_sz ∧
        ∀ j < k, rb.slice_sz * 2 ^ j < 2 * sz) ∧
    (∀ (rb : RB) (sz : Nat) (d : List Nat) (rb' : RB),
      read_bytes_c rb sz = some (d, rb') → rb.slice_sz ≤ rb'.slice_sz) ∧
    (∀ (rb : RB) (b : Nat) (rb' : RB),
      read_byte rb = some (b, rb') → rb.slice_sz = rb'.slice_sz) ∧
    (∀ (rb : RB) (sz shift v : Nat) (rb' : RB),
      read_leb128_aux rb sz shift = some (v, rb') → rb.slice_sz = rb'.slice_sz) ∧
    (∀ (d : List Nat → Option String) (n : Nat) (rb : RB) (col : List String) (rb' : RB),
      read_str_col d n rb = some (col, rb') → rb.slice_sz ≤ rb'.slice_sz) := by
  refine ⟨?_, fun rb sz d rb' h => read_bytes_c_slice_mono h,
    fun rb b rb' h => read_byte_slice h,
    fun rb sz shift v rb' h => leb128_aux_slice (rbBytes rb) rb sz shift v rb' (le_refl _) h,
    fun d n rb col rb' h => read_str_col_slice_mono d n rb col rb' h⟩
  intro rb sz d rb' hstraddle hsmall hpos h
  rw [read_bytes_c, if_neg (by omega)] at h
  have hslice := fillLoop_slice sz rb.gen (bufRest rb) rb.buffer 0 0 _ d rb' h
  obtain ⟨k, hk1, hk2, hk3⟩ := growLoop_spec rb.slice_sz (sz * 2) hpos
  have htemp : rb.slice_sz < growLoop rb.slice_sz (sz * 2) := by omega
  rw [if_pos htemp] at hslice
  exact ⟨k, by rw [hslice, hk1], by rw [hslice]; omega, fun j hj => by
    have := hk3 j hj; omega⟩

/-- Witness for C9: a straddling 3-byte read with scratch capacity 4
grows the capacity to 8 = 4 * 2, the smallest power-of-two multiple of 4
that is at least 6. -/
theorem c9_witness :
    ∃ k, (RB.mk [] [] 0 0 8).slice_sz = (RB.mk [[1, 2, 3]] [] 0 0 4).slice_sz * 2 ^ k ∧
      2 * 3 ≤ (RB.mk [] [] 0 0 8).slice_sz ∧
      ∀ j < k, (RB.mk [[1, 2, 3]] [] 0 0 4).slice_sz * 2 ^ j < 2 * 3 :=
  c9_scratch_growth.1 (RB.mk [[1, 2, 3]] [] 0 0 4) 3 [1, 2, 3] (RB.mk [] [] 0 0 8)
    (by decide) (by decide) (by decide)
    (by rw [read_bytes_c]
        rw [growLoop, growLoop]
        norm_num [bufRest, fillLoop])

/-- Claim C10: `read_nullable_array` with zero rows returns the empty
column and performs no read: the buffer state is returned unchanged. -/
theorem c10_nullable_zero_rows (rb : RB) (item_size : Nat) :
    read_nullable_array rb item_size 0 = some ([], rb) := by
  rw [read_nullable_array, if_pos rfl]

/-- Counterexample to claim C5 as stated: for the wire bytes
`b0..b15 = 0..15`, the decoded 128-bit value is not the integer whose
big-endian byte representation is `b8..b15 ++ b0..b7` (the decoder swaps
the halves and then reads the whole 16 bytes little-endian, so the
big-endian image is `b7..b0 ++ b15..b8` instead). -/
theorem c5_counterexample :
    (Option.map Prod.fst (read_uuid_col
        (initBuffer [[0, 1, 2, 3, 4, 5, 6, 7, 8, 9, 10, 11, 12, 13, 14, 15]]) 1) ==
      some [beVal [8, 9, 10, 11, 12, 13, 14, 15, 0, 1, 2, 3, 4, 5, 6, 7]]) = false := by
  rw [read_uuid_col_fst 1 (bufWF_initBuffer _), streamRest_initBuffer]
  decide

/-- Claim C5 amended: for wire bytes `b0..b15` the decoder swaps the two
8-byte halves and interprets the result little-endian, so the produced
128-bit identifier is the integer whose standard big-endian byte
representation is `b7 b6 … b0 b15 b14 … b8` — each half read as a
little-endian 64-bit integer, high half from `b0..b7`. -/
theorem c5_uuid_swap_amended (b0 b1 b2 b3 b4 b5 b6 b7 b8 b9 b10 b11 b12 b13 b14 b15 : Nat) :
    Option.map Prod.fst (read_uuid_col
        (initBuffer [[b0, b1, b2, b3, b4, b5, b6, b7, b8, b9, b10, b11, b12, b13, b14, b15]]) 1) =
      some [beVal [b7, b6, b5, b4, b3, b2, b1, b0, b15, b14, b13, b12, b11, b10, b9, b8]] := by
  rw [read_uuid_col_fst 1 (bufWF_initBuffer _), streamRest_initBuffer, List.flatten_cons,
    List.flatten_nil, List.append_nil, uuidPure]
  rw [if_pos (by simp)]
  have hr : List.range 1 = [0] := rfl
  simp only [hr, List.map_cons, List.map_nil, Option.some.injEq, List.cons.injEq, and_true]
  show leVal [b8, b9, b10, b11, b12, b13, b14, b15, b0, b1, b2, b3, b4, b5, b6, b7] =
    beVal [b7, b6, b5, b4, b3, b2, b1, b0, b15, b14, b13, b12, b11, b10, b9, b8]
  simp [leVal, beVal]
  ring

/-- Claim C6: nullable masking.  Reading a nullable column whose wire image
is `num_rows` mask bytes followed by the value block: the read succeeds,
every position with a nonzero mask byte is the null marker regardless of
the value bytes (an all-ones mask gives an all-null column for any data),
and with an all-zero mask the column equals decoding the same value block
without a mask (`read_array`), each value wrapped in `some`.  In the
functional model the mask list is captured before the second read, which
reflects the source's copy of the null map into decoder-owned memory. -/
theorem c6_nullable_mask (item_size n : Nat) (mask data : List Nat)
    (hm : mask.length = n) (hd : data.length = n * item_size) :
    ∃ col rb',
      read_nullable_array (initBuffer [mask ++ data]) item_size n = some (col, rb') ∧
      col.length = n ∧
      (∀ i, i < n → mask.getD i 0 ≠ 0 → col.getD i (some 0) = none) ∧
      ((∀ b ∈ mask, b ≠ 0) → col = List.replicate n none) ∧
      ((∀ b ∈ mask, b = 0) →
        Option.map Prod.fst (read_nullable_array (initBuffer [mask ++ data]) item_size n) =
          Option.map (fun pr => pr.1.map some)
            (read_array (initBuffer [data]) item_size n)) := by
  by_cases hz : n = 0
  · subst hz
    have hm0 : mask = [] := List.eq_nil_of_length_eq_zero hm
    have hd0 : data = [] := List.eq_nil_of_length_eq_zero (by omega)
    subst hm0 hd0
    refine ⟨[], initBuffer [([] : List Nat) ++ []], by rw [read_nullable_array, if_pos rfl],
      rfl, fun i hi => by omega, fun _ => rfl, fun _ => ?_⟩
    rw [read_nullable_array, if_pos rfl, read_array]
    rw [show item_size * 0 = 0 from Nat.mul_zero item_size]
    simp [read_bytes_c, initBuffer]
  · have hs : streamRest (initBuffer [mask ++ data]) = mask ++ data := by
      rw [streamRest_initBuffer, List.flatten_cons, List.flatten_nil, List.append_nil]
    have hwf := bufWF_initBuffer [mask ++ data]
    have htake : (mask ++ data).take n = mask := by
      rw [← hm]
      exact List.take_left mask data
    have hdropm : (mask ++ data).drop n = data := by
      rw [← hm]
      exact List.drop_left mask data
    obtain ⟨rb1, heq1, hrest1, hwf1, _, _⟩ := @read_bytes_c_some (initBuffer [mask ++ data]) n
      hwf (by rw [hs, List.length_append]; omega)
    rw [hs, htake] at heq1
    rw [hs, hdropm] at hrest1
    obtain ⟨rb2, heq2, hrest2, hwf2, _, _⟩ := @read_bytes_c_some rb1 (n * item_size) hwf1
      (by rw [hrest1, hd])
    rw [hrest1, List.take_of_length_le (by rw [hd])] at heq2
    have hfinal : read_nullable_array (initBuffer [mask ++ data]) item_size n =
        some ((List.range n).map fun x =>
          if mask.getD x 0 ≠ 0 then none
          else some (leVal ((data.drop (x * item_size)).take item_size)), rb2) := by
      rw [read_nullable_array, if_neg hz]
      simp only [heq1, heq2]
    refine ⟨_, rb2, hfinal, by simp, fun i hi hne => ?_, fun hall => ?_, fun hzero => ?_⟩
    · rw [List.getD_eq_getElem _ _ (by simp [hi])]
      simp only [List.getElem_map, List.getElem_range]
      rw [if_pos hne]
    · refine List.eq_replicate_iff.mpr ⟨by simp, fun v hv => ?_⟩
      obtain ⟨x, hx, rfl⟩ := List.mem_map.mp hv
      have hxn : x < n := List.mem_range.mp hx
      have : mask.getD x 0 ≠ 0 := by
        rw [List.getD_eq_getElem _ _ (by omega)]
        exact hall _ (List.getElem_mem _)
      rw [if_pos this]
    · have hsd : streamRest (initBuffer [data]) = data := by
        rw [streamRest_initBuffer, List.flatten_cons, List.flatten_nil, List.append_nil]
      obtain ⟨rb3, heq3, _, _, _, _⟩ := @read_bytes_c_some (initBuffer [data]) (item_size * n)
        (bufWF_initBuffer [data]) (by rw [hsd, hd, Nat.mul_comm item_size n])
      rw [hsd, List.take_of_length_le (by rw [hd, Nat.mul_comm])] at heq3
      rw [hfinal, read_array]
      simp only [heq3]
      simp only [Option.map_some']
      congr 1
      rw [List.map_map]
      refine List.map_congr_left fun x hx => ?_
      have hmask0 : mask.getD x 0 = 0 := by
        by_cases hxm : x < mask.length
        · rw [List.getD_eq_getElem _ _ hxm]
          exact hzero _ (List.getElem_mem _)
        · exact List.getD_eq_default _ _ (by omega)
      rw [if_neg (by rw [hmask0]; exact fun hcon => hcon rfl)]
      rfl

/-- Witness for C6: two rows of width 1, mask `[1, 0]`, values `[7, 9]`. -/
theorem c6_witness :
    ∃ col rb',
      read_nullable_array (initBuffer [[1, 0] ++ [7, 9]]) 1 2 = some (col, rb') ∧
      col.length = 2 ∧
      (∀ i, i < 2 → [1, 0].getD i 0 ≠ 0 → col.getD i (some 0) = none) ∧
      ((∀ b ∈ [1, 0], b ≠ 0) → col = List.replicate 2 none) ∧
      ((∀ b ∈ [1, 0], b = 0) →
        Option.map Prod.fst (read_nullable_array (initBuffer [[1, 0] ++ [7, 9]]) 1 2) =
          Option.map (fun pr => pr.1.map some) (read_array (initBuffer [[7, 9]]) 1 2)) :=
  c6_nullable_mask 1 2 [1, 0] [7, 9] rfl rfl

theorem tdiv_nonpos_eq (a b : Int) (ha : a ≤ 0) (hb : 0 ≤ b) : a.tdiv b = -((-a) / b) := by
  conv_lhs => rw [show a = -(-a) from (neg_neg a).symm]
  rw [Int.neg_tdiv, Int.tdiv_eq_ediv (by omega) hb]

theorem monthFind_spec (m_list : List Int) (rem : Int) :
    ∀ (fuel : Nat) (month month' prev : Int),
      monthFind m_list rem month fuel = some (month', prev) →
      monthLookup m_list month' = some prev ∧ ¬ rem < prev ∧ month' ≤ month ∧
        (month' = month ∨ ∃ p', monthLookup m_list (month' + 1) = some p' ∧ rem < p') := by
  intro fuel
  induction fuel with
  | zero => intro month month' prev h; rw [monthFind] at h; cases h
  | succ fuel ih =>
    intro month month' prev h
    rw [monthFind] at h
    match hl : monthLookup m_list month with
    | none => rw [hl] at h; cases h
    | some prev0 =>
      simp only [hl] at h
      by_cases hlt : rem < prev0
      · rw [if_pos hlt] at h
        obtain ⟨h1, h2, h3, h4⟩ := ih (month - 1) month' prev h
        refine ⟨h1, h2, by omega, ?_⟩
        rcases h4 with heq | hex
        · exact Or.inr ⟨prev0, by rw [heq, sub_add_cancel]; exact hl, hlt⟩
        · exact Or.inr hex
      · rw [if_neg hlt] at h
        simp only [Option.some.injEq, Prod.mk.injEq] at h
        obtain ⟨hm, hp⟩ := h
        exact ⟨by rw [← hm, ← hp]; exact hl, by rw [← hp]; exact hlt,
          by omega, Or.inl hm.symm⟩

theorem monthDays_no_feb29 (rem month prev : Int)
    (h : monthFind MONTH_DAYS rem ((rem + 24) >>> 5) 13 = some (month, prev))
    (hm : month + 1 = 2) (hd : rem + 1 - prev = 29) : False := by
  obtain ⟨hlook, hge, _, hdisj⟩ := monthFind_spec MONTH_DAYS rem 13 _ month prev h
  have hmonth : month = 1 := by omega
  rw [hmonth] at hlook hdisj
  have h31 : monthLookup MONTH_DAYS 1 = some 31 := by decide
  rw [h31, Option.some.injEq] at hlook
  have hrem : rem = 59 := by omega
  rcases hdisj with heq | ⟨p', hlook2, hlt⟩
  · rw [hrem] at heq
    have : ((59 : Int) + 24) >>> 5 = 2 := by decide
    rw [this] at heq
    omega
  · have h59 : monthLookup MONTH_DAYS (1 + 1) = some 59 := by decide
    rw [h59, Option.some.injEq] at hlook2
    omega

theorem general_path_no_feb29_century (days y : Int) (hy : y % 100 = 0) (hy2 : y ≠ 2000) :
    general_path days ≠ some (y, 2, 29) := by
  intro h
  simp only [general_path] at h
  split at h
  · simp at h
  · split at h
    · cases h
    · rename_i month prev heqmf
      simp only [Option.some.injEq, Prod.mk.injEq] at h
      obtain ⟨hyy, hm2, hd29⟩ := h
      split at heqmf
      · rename_i hleap
        rcases hleap.2 with h2000 | hcent
        · omega
        · omega
      · exact monthDays_no_feb29 _ month prev heqmf (by omega) (by omega)

theorem fast_path_no_feb29_century (days y : Int) (h0 : 0 ≤ days) (h1 : days < 47482)
    (hy : y % 100 = 0) (hy2 : y ≠ 2000) :
    epoch_days_to_date days ≠ some (y, 2, 29) := by
  intro h
  have hediv1 : (days + 365).tdiv 1461 = (days + 365) / 1461 :=
    Int.tdiv_eq_ediv (by omega) (by norm_num)
  simp only [epoch_days_to_date] at h
  rw [if_pos (show (0 : Int) ≤ days ∧ days < 47482 from ⟨h0, h1⟩), hediv1] at h
  have hediv2 : (days + 365 - (days + 365) / 1461 * 1461).tdiv 365 =
      (days + 365 - (days + 365) / 1461 * 1461) / 365 :=
    Int.tdiv_eq_ediv (by omega) (by norm_num)
  rw [hediv2] at h
  split at h
  · simp at h
  · split at h
    · cases h
    · rename_i month prev heqmf
      simp only [Option.some.injEq, Prod.mk.injEq] at h
      obtain ⟨hyy, hm2, hd29⟩ := h
      split at heqmf
      · rename_i hyears3
        omega
      · exact monthDays_no_feb29 _ month prev heqmf (by omega) (by omega)

theorem noFeb29_century (days y : Int) (hy : y % 100 = 0) (hy2 : y ≠ 2000) :
    epoch_days_to_date days ≠ some (y, 2, 29) := by
  by_cases hc : 0 ≤ days ∧ days < 47482
  · exact fast_path_no_feb29_century days y hc.1 hc.2 hy hy2
  · intro h
    rw [epoch_days_to_date, if_neg hc] at h
    exact general_path_no_feb29_century days y hy hy2 h

/-- Claim C2: calendar conversion.  Day offset 0 is 1970-01-01 and -1 is
1969-12-31; offset 11016 (2000-02-29) decodes to the leap day; offset
-25508 (1900-03-01) decodes to March 1, 1900, and no day offset at all
decodes to a February 29, 1900 (stated via `==` on the decidable
equality); and at the fast/general path switch, the function agrees with
the general-path computation on both 47481 and 47482. -/
theorem c2_epoch_days_to_date :
    epoch_days_to_date 0 = some (1970, 1, 1) ∧
    epoch_days_to_date (-1) = some (1969, 12, 31) ∧
    epoch_days_to_date 11016 = some (2000, 2, 29) ∧
    epoch_days_to_date (-25508) = some (1900, 3, 1) ∧
    (∀ days : Int,
      (epoch_days_to_date days == some ((1900 : Int), (2 : Int), (29 : Int))) = false) ∧
    epoch_days_to_date 47481 = general_path 47481 ∧
    epoch_days_to_date 47482 = general_path 47482 := by
  refine ⟨by decide, by decide, by decide, by decide, fun days => ?_, by decide, by decide⟩
  rw [beq_eq_false_iff_ne]
  exact noFeb29_century days 1900 (by decide) (by decide)

/-- Counterexample to claim C8 as stated: 2400 is divisible by 400, and
day offset 157113 is the proleptic-Gregorian offset of 2400-02-29, yet
the code decodes it to March 1, 2400 — the general path treats every
century year except 2000 as non-leap, so February 29, 2400 does not
decode correctly. -/
theorem c8_counterexample :
    epoch_days_to_date 157113 = some (2400, 3, 1) ∧
    (epoch_days_to_date 157113 == some ((2400 : Int), (2 : Int), (29 : Int))) = false := by
  exact ⟨by decide, by decide⟩

/-- Claim C8 amended: in the general path, century handling special-cases
only the year 2000 as leap: the general-path computation decodes offset
11016 (2000-02-29) to the leap day, while century years not divisible by
400 stay non-leap (offsets 47540/47541 around the non-existent
2100-02-29 give 2100-02-28 and 2100-03-01), and a century year divisible
by 400 other than 2000, such as 2400, is also treated as non-leap
(offset 157113, the real 2400-02-29, gives 2400-03-01): no day offset
decodes to February 29 of any century year other than 2000. -/
theorem c8_century_leap_amended :
    general_path 11016 = some (2000, 2, 29) ∧
    epoch_days_to_date 47540 = some (2100, 2, 28) ∧
    epoch_days_to_date 47541 = some (2100, 3, 1) ∧
    epoch_days_to_date 157113 = some (2400, 3, 1) ∧
    (∀ days yy : Int, yy % 100 = 0 → yy ≠ 2000 →
      (epoch_days_to_date days == some (yy, (2 : Int), (29 : Int))) = false) := by
  refine ⟨by decide, by decide, by decide, by decide, fun days yy h1 h2 => ?_⟩
  rw [beq_eq_false_iff_ne]
  exact noFeb29_century days yy h1 h2
